import Mathlib

/-!
Verification of the state diff / time-travel engine of this repository
(src/use-state-dev-tools/diff.ts) and its namespace-keyed diff store
(the storeDiff module).

JavaScript runtime values are embedded as the inductive type `Value`.
Numbers are embedded as integers (no claim concerns floating point or NaN).
Arrays and functions are compared by reference in the source, so they carry a
reference tag `ref : Nat`; two arrays are strictly equal exactly when their
tags coincide.  Plain objects are embedded as association lists of fields in
insertion order; the JS semantics "first occurrence wins" is used uniformly
for lookup, `Object.keys`, and property assignment, so a list with a
duplicated key denotes the same object as the list with the later duplicate
dropped.
-/

inductive Value where
  | vstr (s : String)
  | vint (n : Int)
  | vbool (b : Bool)
  | vnull
  | vundefined
  | varr (ref : Nat) (elems : List Value)
  | vfunc (ref : Nat)
  | vobj (fields : List (String × Value))

abbrev Fields := List (String × Value)

open Value

/-- Field lookup, JS `obj[key]`: first matching entry, `undefined` if absent. -/
def getField (fs : Fields) (k : String) : Value :=
  match fs with
  | [] => .vundefined
  | (k2, v) :: rest => if k2 = k then v else getField rest k

/-- Field lookup returning an `Option`, used to state lemmas that
distinguish an absent key from a key stored with value `undefined`. -/
def lookupF (fs : Fields) (k : String) : Option Value :=
  match fs with
  | [] => none
  | (k2, v) :: rest => if k2 = k then some v else lookupF rest k

/-- JS property assignment `obj[key] = v`: an existing key keeps its position
and gets the new value, a fresh key is appended at the end. -/
def setKey (fs : Fields) (k : String) (v : Value) : Fields :=
  match fs with
  | [] => [(k, v)]
  | (k2, v2) :: rest => if k2 = k then (k, v) :: rest else (k2, v2) :: setKey rest k v

/-- Raw key list of an association list (duplicates included). -/
def fieldKeys (fs : Fields) : List String :=
  fs.map Prod.fst

/-- Entries of a JS object as iterated by `Object.keys`: first occurrence of
each key, in insertion order, paired with the value that lookup returns. -/
def dedupFields (fs : Fields) : Fields :=
  match fs with
  | [] => []
  | (k, v) :: rest => (k, v) :: dedupFields (rest.filter (fun p => p.1 ≠ k))
termination_by fs.length
decreasing_by
  simp only [List.length_cons]
  exact Nat.lt_succ_of_le (List.length_filter_le _ _)

/-- Entries whose key is not in `ks` (used for the keys only present in the
second object of a comparison). -/
def restFields (fs : Fields) (ks : List String) : Fields :=
  fs.filter (fun p => !(ks.contains p.1))

/-- Transcribes `isObject` from diff.ts: non-null, `typeof === 'object'`, not
an array.  Only plain mappings qualify. -/
def isObject (value : Value) : Bool :=
  match value with
  | .vobj _ => true
  | _ => false

/-- Transcribes `isArray` from diff.ts. -/
def isArray (value : Value) : Bool :=
  match value with
  | .varr _ _ => true
  | _ => false

/-- JS strict equality `===` restricted to the shapes the source compares:
values of different runtime type are never strictly equal; primitives compare
by value; arrays and functions compare by reference tag.  Two plain objects
reach this function nowhere in the source (`diff` handles the object/object
case separately), so that case is conservatively `false`. -/
def strictEq : Value → Value → Bool
  | .vstr s, .vstr t => s == t
  | .vint m, .vint n => m == n
  | .vbool x, .vbool y => x == y
  | .vnull, .vnull => true
  | .vundefined, .vundefined => true
  | .varr i _, .varr j _ => i == j
  | .vfunc i, .vfunc j => i == j
  | _, _ => false

/-- Fields of a plain object, `[]` for every other value. -/
def objFields (v : Value) : Fields :=
  match v with
  | .vobj fs => fs
  | _ => []

/-- The leaf diff object `{ _diff: { a, b } }` built by `diff`. -/
def primDiff (a b : Value) : Value :=
  .vobj [("_diff", .vobj [("a", a), ("b", b)])]

section SizeLemmas

theorem value_sizeOf_pos (v : Value) : 0 < sizeOf v := by
  cases v <;> simp

theorem fields_sizeOf_pos (fs : Fields) : 0 < sizeOf fs := by
  cases fs <;> simp

theorem getField_sizeOf_lt (fs : Fields) (k : String) :
    sizeOf (getField fs k) < 1 + sizeOf fs := by
  induction fs with
  | nil => simp [getField]
  | cons p rest ih =>
    obtain ⟨k2, v⟩ := p
    by_cases h : k2 = k
    · simp only [getField, h, if_pos rfl]
      simp
      omega
    · simp only [getField, if_neg h]
      have := ih
      simp
      omega

theorem filter_sizeOf_le (p : String × Value → Bool) (fs : Fields) :
    sizeOf (fs.filter p) ≤ sizeOf fs := by
  induction fs with
  | nil => simp
  | cons q rest ih =>
    by_cases h : p q
    · simp [List.filter, h]
      omega
    · simp [List.filter, h]
      have := value_sizeOf_pos q.2
      calc sizeOf (List.filter p rest) ≤ sizeOf rest := ih
        _ ≤ 1 + sizeOf q + sizeOf rest := by omega

theorem dedupFields_sizeOf_le (fs : Fields) :
    sizeOf (dedupFields fs) ≤ sizeOf fs := by
  have H : ∀ (n : Nat) (gs : Fields), gs.length ≤ n →
      sizeOf (dedupFields gs) ≤ sizeOf gs := by
    intro n
    induction n with
    | zero =>
      intro gs h
      match gs with
      | [] => simp [dedupFields]
      | _ :: _ => simp at h
    | succ n ih =>
      intro gs h
      match gs with
      | [] => simp [dedupFields]
      | (k, v) :: rest =>
        rw [dedupFields]
        have hlen : (rest.filter (fun p => p.1 ≠ k)).length ≤ n := by
          have := List.length_filter_le (fun p => decide (p.1 ≠ k)) rest
          simp at h
          omega
        have h1 := ih (rest.filter (fun p => p.1 ≠ k)) hlen
        have h2 := filter_sizeOf_le (fun p => decide (p.1 ≠ k)) rest
        simp only [List.cons.sizeOf_spec]
        omega
  exact H fs.length fs le_rfl

theorem objFields_sizeOf_le (v : Value) : sizeOf (objFields v) ≤ sizeOf v := by
  cases v <;> simp [objFields] <;> omega

theorem objFields_sizeOf_lt (v : Value) (h : isObject v = true) :
    sizeOf (objFields v) < sizeOf v := by
  cases v <;> simp [isObject] at h <;> simp [objFields]

theorem termBound1 (k : String) (va : Value) (rest : Fields) (fb : Fields) :
    sizeOf va + sizeOf (getField fb k) < sizeOf ((k, va) :: rest) + sizeOf fb := by
  have hg := getField_sizeOf_lt fb k
  have hr := fields_sizeOf_pos rest
  simp only [List.cons.sizeOf_spec, Prod.mk.sizeOf_spec]
  omega

theorem termBound2 (fa : Fields) (k : String) (vb : Value) (rest : Fields) :
    sizeOf (getField fa k) + sizeOf vb < sizeOf fa + sizeOf ((k, vb) :: rest) := by
  have hg := getField_sizeOf_lt fa k
  have hr := fields_sizeOf_pos rest
  simp only [List.cons.sizeOf_spec, Prod.mk.sizeOf_spec]
  omega

theorem termSelf1 (p : String × Value) (rest : Fields) (fb : Fields) :
    sizeOf rest + sizeOf fb < sizeOf (p :: rest) + sizeOf fb := by
  have := value_sizeOf_pos p.2
  simp only [List.cons.sizeOf_spec]
  omega

theorem termSelf2 (fa : Fields) (p : String × Value) (rest : Fields) :
    sizeOf fa + sizeOf rest < sizeOf fa + sizeOf (p :: rest) := by
  have := value_sizeOf_pos p.2
  simp only [List.cons.sizeOf_spec]
  omega

end SizeLemmas

mutual

/-- Transcribes `diff` from diff.ts.  When both sides are plain objects, the
source iterates `Set([...Object.keys(a), ...Object.keys(b)])`, i.e. the keys
of `a` in insertion order followed by the keys only in `b` in their insertion
order; here that single iteration is split into the two passes
`diffPass1` (keys of `a`) and `diffPass2` (keys only in `b`), appended in the
same order.  Otherwise it returns `{ _diff: { a, b } }` when `a !== b` and
"no diff" (`none`, for JS `undefined`) when `a === b`. -/
def diff (a b : Value) : Option Value :=
  if h : isObject a && isObject b then
    let ds := diffPass1 (dedupFields (objFields a)) (objFields b) ++
      diffPass2 (objFields a)
        (dedupFields (restFields (objFields b) (fieldKeys (objFields a))))
    if ds.isEmpty then none else some (.vobj ds)
  else
    if strictEq a b then none else some (primDiff a b)
termination_by sizeOf a + sizeOf b
decreasing_by
  · have ha := objFields_sizeOf_lt a (by simp at h; exact h.1)
    have hb := objFields_sizeOf_lt b (by simp at h; exact h.2)
    have hd := dedupFields_sizeOf_le (objFields a)
    omega
  · have ha := objFields_sizeOf_lt a (by simp at h; exact h.1)
    have hb := objFields_sizeOf_lt b (by simp at h; exact h.2)
    have hd := dedupFields_sizeOf_le (restFields (objFields b) (fieldKeys (objFields a)))
    have hf : sizeOf (restFields (objFields b) (fieldKeys (objFields a))) ≤
        sizeOf (objFields b) := filter_sizeOf_le _ _
    omega

/-- The reduce over the keys of `a`: for each entry `(k, a[k])` of `a`, keep
`(k, diff a[k] b[k])` when that recursive diff is present. -/
def diffPass1 (ents : Fields) (fb : Fields) : Fields :=
  match ents with
  | [] => []
  | (k, va) :: rest =>
    match diff va (getField fb k) with
    | some d => (k, d) :: diffPass1 rest fb
    | none => diffPass1 rest fb
termination_by sizeOf ents + sizeOf fb
decreasing_by
  all_goals first
    | apply termBound1
    | apply termSelf1

/-- The reduce over the keys only present in `b`: `a[k]` is looked up (and is
`undefined` there), `b[k]` is the entry value. -/
def diffPass2 (fa : Fields) (ents : Fields) : Fields :=
  match ents with
  | [] => []
  | (k, vb) :: rest =>
    match diff (getField fa k) vb with
    | some d => (k, d) :: diffPass2 fa rest
    | none => diffPass2 fa rest
termination_by sizeOf fa + sizeOf ents
decreasing_by
  all_goals first
    | apply termBound2
    | apply termSelf2

end

/-- JS property read `v[key]` for the shapes the source reads: field lookup on
plain objects, `undefined` otherwise.  In the source this is only applied to
values already known to be plain objects. -/
def getFieldV (v : Value) (k : String) : Value :=
  match v with
  | .vobj fs => getField fs k
  | _ => .vundefined

/-- JS own-property test `value.hasOwnProperty(key)` for the shapes the
classifiers can reach: key membership on plain objects, index/length
properties on arrays and (boxed) strings, nothing on other primitives and
functions. -/
def hasOwnProp (v : Value) (k : String) : Bool :=
  match v with
  | .vobj fs => (fieldKeys fs).contains k
  | .varr _ es =>
    k == "length" ||
      (match k.toNat? with
       | some i => i < es.length
       | none => false)
  | .vstr s =>
    k == "length" ||
      (match k.toNat? with
       | some i => i < s.length
       | none => false)
  | _ => false

/-- JS `value === null || value === undefined`: the values on which optional
chaining `value?.` short-circuits. -/
def isNullish (v : Value) : Bool :=
  match v with
  | .vnull => true
  | .vundefined => true
  | _ => false

/-- Length of JS `Object.keys(v)`: number of distinct keys for plain objects,
index count for arrays and boxed strings, zero otherwise. -/
def numOwnKeys (v : Value) : Nat :=
  match v with
  | .vobj fs => (dedupFields fs).length
  | .varr _ es => es.length
  | .vstr s => s.length
  | _ => 0

/-- Transcribes `isPrimitiveDiff` from diff.ts: a plain object owning `_diff`
whose (non-nullish) `_diff` value owns exactly the two keys `a` and `b`. -/
def isPrimitiveDiff (value : Value) : Bool :=
  isObject value &&
  hasOwnProp value "_diff" &&
  (!isNullish (getFieldV value "_diff") &&
    hasOwnProp (getFieldV value "_diff") "a" &&
    hasOwnProp (getFieldV value "_diff") "b" &&
    numOwnKeys (getFieldV value "_diff") == 2)

/-- Transcribes `isObjectDiff` from diff.ts: a plain object that does not own
the key `_diff`. -/
def isObjectDiff (value : Value) : Bool :=
  isObject value && !hasOwnProp value "_diff"

/-- The shallow copy the source builds before applying an object diff:
`{...originalValue}` for plain objects, `[...originalValue]` for arrays, the
value itself otherwise.  The copy has the same own entries (respectively
elements); the pure model keeps the reference tag, which is never consulted
on an `applyDiff` result by any operation modelled here. -/
def shallowCopy (v : Value) : Value :=
  match v with
  | .vobj fs => .vobj fs
  | .varr r es => .varr r es
  | v => v

theorem termBoundLoop (k : String) (sub : Value) (rest : Fields) :
    sizeOf (some sub) < sizeOf ((k, sub) :: rest) := by
  have := fields_sizeOf_pos rest
  simp only [Option.some.sizeOf_spec, List.cons.sizeOf_spec, Prod.mk.sizeOf_spec]
  omega

theorem termSelfLoop (p : String × Value) (rest : Fields) :
    sizeOf rest < sizeOf (p :: rest) := by
  have := value_sizeOf_pos p.2
  simp only [List.cons.sizeOf_spec]
  omega

theorem termBoundField (k : String) (v : Value) (rest : Fields) :
    sizeOf v < sizeOf ((k, v) :: rest) := by
  have := fields_sizeOf_pos rest
  simp only [List.cons.sizeOf_spec, Prod.mk.sizeOf_spec]
  omega

mutual

/-- Transcribes `applyDiff` from diff.ts.  The `diff` parameter has JS type
`Diff | undefined`; the absent case is embedded as `none`.  The source's
direction parameter is called `to` (a Lean keyword), so it is `dir` here; it
selects the `"a"` or `"b"` side of each leaf.  A primitive diff returns its
selected side outright; an absent diff returns the shallow copy of the base;
an object diff updates the copy at each of the diff's keys (the
`Object.keys(diff).forEach` loop is `applyLoop`); any remaining combination
falls through to the final `return undefined`. -/
def applyDiff (originalValue : Value) (d : Option Value) (dir : String) : Value :=
  match d with
  | none => shallowCopy originalValue
  | some dv =>
    if isPrimitiveDiff dv then
      getFieldV (getFieldV dv "_diff") dir
    else
      let result := shallowCopy originalValue
      if isObject result && isObjectDiff dv then
        .vobj (applyLoop dir (dedupFields (objFields dv)) (objFields result))
      else
        .vundefined
termination_by sizeOf d
decreasing_by
  have h1 := dedupFields_sizeOf_le (objFields dv)
  have h2 := objFields_sizeOf_le dv
  simp only [Option.some.sizeOf_spec]
  omega

/-- The `forEach` over `Object.keys(diff)`: for each diff entry `(k, sub)`,
`result[k] = applyDiff(result[k], sub, dir)`. -/
def applyLoop (dir : String) (ents : Fields) (acc : Fields) : Fields :=
  match ents with
  | [] => acc
  | (k, sub) :: rest =>
    applyLoop dir rest (setKey acc k (applyDiff (getField acc k) (some sub) dir))
termination_by sizeOf ents
decreasing_by
  · apply termBoundLoop
  · apply termSelfLoop

end

mutual

/-- Documented equality of the specification (sections 3 and 8): strict
equality for primitives, reference identity for arrays and functions, and
deep, key-inclusion-order-insensitive equality for plain mappings, where a
key stored with value `undefined` is indistinguishable from an absent key.
Structured like `diff`: a pass over the keys of `a` and a pass over the keys
only in `b`. -/
def deepEq (a b : Value) : Bool :=
  if h : isObject a && isObject b then
    deepEqPass1 (dedupFields (objFields a)) (objFields b) &&
      deepEqPass2 (objFields a)
        (dedupFields (restFields (objFields b) (fieldKeys (objFields a))))
  else
    strictEq a b
termination_by sizeOf a + sizeOf b
decreasing_by
  · have ha := objFields_sizeOf_lt a (by simp at h; exact h.1)
    have hb := objFields_sizeOf_lt b (by simp at h; exact h.2)
    have hd := dedupFields_sizeOf_le (objFields a)
    omega
  · have ha := objFields_sizeOf_lt a (by simp at h; exact h.1)
    have hb := objFields_sizeOf_lt b (by simp at h; exact h.2)
    have hd := dedupFields_sizeOf_le (restFields (objFields b) (fieldKeys (objFields a)))
    have hf : sizeOf (restFields (objFields b) (fieldKeys (objFields a))) ≤
        sizeOf (objFields b) := filter_sizeOf_le _ _
    omega

/-- Over each key of `a`: the values at that key agree. -/
def deepEqPass1 (ents : Fields) (fb : Fields) : Bool :=
  match ents with
  | [] => true
  | (k, va) :: rest => deepEq va (getField fb k) && deepEqPass1 rest fb
termination_by sizeOf ents + sizeOf fb
decreasing_by
  · apply termBound1
  · apply termSelf1

/-- Over each key only in `b`: the values at that key agree (`a`'s side reads
as `undefined`). -/
def deepEqPass2 (fa : Fields) (ents : Fields) : Bool :=
  match ents with
  | [] => true
  | (k, vb) :: rest => deepEq (getField fa k) vb && deepEqPass2 fa rest
termination_by sizeOf fa + sizeOf ents
decreasing_by
  · apply termBound2
  · apply termSelf2

end

mutual

/-- States whose nested mappings never own the reserved key `_diff` (array
elements are excluded: `diff` never looks inside arrays). -/
def noDiffKey (v : Value) : Bool :=
  match v with
  | .vobj fs => !(fieldKeys fs).contains "_diff" && noDiffKeyF fs
  | _ => true
termination_by sizeOf v
decreasing_by
  simp only [Value.vobj.sizeOf_spec]
  omega

def noDiffKeyF (fs : Fields) : Bool :=
  match fs with
  | [] => true
  | (_, v) :: rest => noDiffKey v && noDiffKeyF rest
termination_by sizeOf fs
decreasing_by
  · apply termBoundField
  · apply termSelfLoop

end

/-- JS truthiness: `undefined`, `null`, `false`, `0` and the empty string are
falsy, everything else modelled here is truthy. -/
def truthy (v : Value) : Bool :=
  match v with
  | .vundefined => false
  | .vnull => false
  | .vbool b => b
  | .vint n => n != 0
  | .vstr s => s != ""
  | _ => true

/-- JS property write `v[key] = x` on the shapes the store writes to: update
on plain objects, identity otherwise (unreachable after the setup guards). -/
def setFieldV (v : Value) (k : String) (x : Value) : Value :=
  match v with
  | .vobj fs => .vobj (setKey fs k x)
  | _ => v

/-- Transcribes `setupNamespace` from the store module.  The state threaded
through is the value of the well-known global `_STATE_DEV_TOOLS_` (initially
`undefined`); each `x = x || fallback` of the source becomes a truthiness
test, and property writes are threaded by value along the access path. -/
def setupNamespace (namespaceId : String) (g0 : Value) : Value :=
  let g1 := if truthy g0 then g0 else .vobj []
  let sns :=
    if truthy (getFieldV g1 "stateNamespaces") then getFieldV g1 "stateNamespaces"
    else .vobj []
  let g2 := setFieldV g1 "stateNamespaces" sns
  let ns :=
    if truthy (getFieldV sns namespaceId) then getFieldV sns namespaceId
    else .vobj [("stateEntries", .varr 0 [])]
  setFieldV g2 "stateNamespaces" (setFieldV sns namespaceId ns)

/-- Transcribes `storeDiff` from the store module:
`g[GLOBAL_NAMESPACE].stateNamespaces[namespaceId].stateEntries.push({ diff })`
after `setupNamespace`.  The mutating `push` is threaded by value along the
access path, keeping the array's reference tag (the same array object grows).
`push` on anything that is not an array is a JS `TypeError`; that (and a
namespace slot whose `stateEntries` cannot be read) is `none`. -/
def storeDiff (namespaceId : String) (d : Value) (g0 : Value) : Option Value :=
  let g := setupNamespace namespaceId g0
  let sns := getFieldV g "stateNamespaces"
  let ns := getFieldV sns namespaceId
  match getFieldV ns "stateEntries" with
  | .varr r es =>
    some (setFieldV g "stateNamespaces"
      (setFieldV sns namespaceId
        (setFieldV ns "stateEntries" (.varr r (es ++ [.vobj [("diff", d)]])))))
  | _ => none

section ListLemmas

theorem getField_eq_lookupF (fs : Fields) (k : String) :
    getField fs k = (lookupF fs k).getD .vundefined := by
  induction fs with
  | nil => simp [getField, lookupF]
  | cons p rest ih =>
    obtain ⟨k2, v⟩ := p
    by_cases h : k2 = k <;> simp [getField, lookupF, h, ih]

theorem lookupF_none_iff (fs : Fields) (k : String) :
    lookupF fs k = none ↔ k ∉ fieldKeys fs := by
  induction fs with
  | nil => simp [lookupF, fieldKeys]
  | cons p rest ih =>
    obtain ⟨k2, v⟩ := p
    by_cases h : k2 = k <;> simp [lookupF, fieldKeys, h, ih] <;> tauto

theorem lookupF_mem (fs : Fields) (k : String) (v : Value)
    (h : lookupF fs k = some v) : (k, v) ∈ fs := by
  induction fs with
  | nil => simp [lookupF] at h
  | cons p rest ih =>
    obtain ⟨k2, v2⟩ := p
    by_cases hk : k2 = k
    · subst hk
      simp [lookupF] at h
      simp [h]
    · simp [lookupF, hk] at h
      exact List.mem_cons_of_mem _ (ih h)

theorem getField_of_not_mem (fs : Fields) (k : String)
    (h : k ∉ fieldKeys fs) : getField fs k = .vundefined := by
  rw [getField_eq_lookupF, (lookupF_none_iff fs k).2 h]
  rfl

theorem lookupF_getField (fs : Fields) (k : String) (h : k ∈ fieldKeys fs) :
    lookupF fs k = some (getField fs k) := by
  rw [getField_eq_lookupF]
  cases hl : lookupF fs k with
  | none => exact absurd ((lookupF_none_iff fs k).1 hl) (by simp [h])
  | some v => rfl

theorem getField_setKey_self (fs : Fields) (k : String) (v : Value) :
    getField (setKey fs k v) k = v := by
  induction fs with
  | nil => simp [setKey, getField]
  | cons p rest ih =>
    obtain ⟨k2, v2⟩ := p
    by_cases h : k2 = k <;> simp [setKey, getField, h, ih]

theorem getField_setKey_ne (fs : Fields) (k k2 : String) (v : Value)
    (h : k2 ≠ k) : getField (setKey fs k v) k2 = getField fs k2 := by
  have hne : k ≠ k2 := Ne.symm h
  induction fs with
  | nil => simp [setKey, getField, hne]
  | cons p rest ih =>
    obtain ⟨k3, v3⟩ := p
    by_cases h3 : k3 = k
    · subst h3
      simp [setKey, getField, hne]
    · by_cases h2 : k3 = k2 <;> simp [setKey, getField, h2, h3, h, ih]

theorem lookupF_filter (p : String × Value → Bool) (fs : Fields) (k : String)
    (hp : ∀ v : Value, p (k, v) = true) :
    lookupF (fs.filter p) k = lookupF fs k := by
  induction fs with
  | nil => simp [lookupF]
  | cons q rest ih =>
    obtain ⟨k2, v2⟩ := q
    by_cases hk : k2 = k
    · subst hk
      simp [List.filter, hp v2, lookupF, ih]
    · by_cases hq : p (k2, v2) <;> simp [List.filter, hq, lookupF, hk, ih]

theorem lookupF_filter_none (p : String × Value → Bool) (fs : Fields) (k : String)
    (hp : ∀ v : Value, p (k, v) = false) :
    lookupF (fs.filter p) k = none := by
  induction fs with
  | nil => simp [lookupF]
  | cons q rest ih =>
    obtain ⟨k2, v2⟩ := q
    by_cases hk : k2 = k
    · subst hk
      simp [List.filter, hp v2, ih]
    · by_cases hq : p (k2, v2) <;> simp [List.filter, hq, lookupF, hk, ih]

theorem lookupF_dedupFields (fs : Fields) (k : String) :
    lookupF (dedupFields fs) k = lookupF fs k := by
  have H : ∀ (n : Nat) (gs : Fields), gs.length ≤ n →
      lookupF (dedupFields gs) k = lookupF gs k := by
    intro n
    induction n with
    | zero =>
      intro gs h
      match gs with
      | [] => simp [dedupFields]
      | _ :: _ => simp at h
    | succ n ih =>
      intro gs h
      match gs with
      | [] => simp [dedupFields]
      | (k2, v) :: rest =>
        rw [dedupFields]
        by_cases hk : k2 = k
        · subst hk
          simp [lookupF]
        · simp only [lookupF, if_neg hk]
          have hlen : (rest.filter (fun p => p.1 ≠ k2)).length ≤ n := by
            have := List.length_filter_le (fun p => decide (p.1 ≠ k2)) rest
            simp at h
            omega
          rw [ih _ hlen]
          exact lookupF_filter _ rest k (by intro v2; simpa using Ne.symm hk)
  exact H fs.length fs le_rfl

theorem fieldKeys_dedupFields_nodup (fs : Fields) :
    (fieldKeys (dedupFields fs)).Nodup := by
  have H : ∀ (n : Nat) (gs : Fields), gs.length ≤ n →
      (fieldKeys (dedupFields gs)).Nodup := by
    intro n
    induction n with
    | zero =>
      intro gs h
      match gs with
      | [] => simp [dedupFields, fieldKeys]
      | _ :: _ => simp at h
    | succ n ih =>
      intro gs h
      match gs with
      | [] => simp [dedupFields, fieldKeys]
      | (k2, v) :: rest =>
        rw [dedupFields]
        have hlen : (rest.filter (fun p => p.1 ≠ k2)).length ≤ n := by
          have := List.length_filter_le (fun p => decide (p.1 ≠ k2)) rest
          simp at h
          omega
        have hnd := ih _ hlen
        simp only [fieldKeys, List.map_cons, List.nodup_cons]
        refine ⟨?_, hnd⟩
        intro hmem
        have : lookupF (dedupFields (rest.filter (fun p => p.1 ≠ k2))) k2 ≠ none := by
          rw [Ne, lookupF_none_iff]
          simpa [fieldKeys] using hmem
        rw [lookupF_dedupFields] at this
        rw [lookupF_filter_none (fun p => decide (p.1 ≠ k2)) rest k2 (by simp)] at this
        exact this rfl
  exact H fs.length fs le_rfl

end ListLemmas

section DiffCharacterization

/-- The entry list built by the object/object branch of `diff`. -/
def diffRun (fa fb : Fields) : Fields :=
  diffPass1 (dedupFields fa) fb ++
    diffPass2 fa (dedupFields (restFields fb (fieldKeys fa)))

theorem diff_obj (fa fb : Fields) :
    diff (.vobj fa) (.vobj fb) =
      if (diffRun fa fb).isEmpty then none else some (.vobj (diffRun fa fb)) := by
  simp [diff, diffRun, isObject, objFields]

theorem diff_not_obj (a b : Value) (h : (isObject a && isObject b) = false) :
    diff a b = if strictEq a b then none else some (primDiff a b) := by
  rw [diff]
  simp [h]

theorem diff_vundefined : diff .vundefined .vundefined = none := by
  rw [diff]
  simp [isObject, strictEq]

theorem lookupF_append (l1 l2 : Fields) (k : String) :
    lookupF (l1 ++ l2) k =
      (match lookupF l1 k with
       | some v => some v
       | none => lookupF l2 k) := by
  induction l1 with
  | nil => simp [lookupF]
  | cons p rest ih =>
    obtain ⟨k2, v2⟩ := p
    by_cases h : k2 = k <;> simp [lookupF, h, ih]

theorem mem_fieldKeys_iff_lookupF (fs : Fields) (k : String) :
    k ∈ fieldKeys fs ↔ lookupF fs k ≠ none := by
  constructor
  · intro h hn
    exact (lookupF_none_iff fs k).1 hn h
  · intro h
    by_contra hm
    exact h ((lookupF_none_iff fs k).2 hm)

theorem mem_fieldKeys_dedupFields (fs : Fields) (k : String) :
    k ∈ fieldKeys (dedupFields fs) ↔ k ∈ fieldKeys fs := by
  rw [mem_fieldKeys_iff_lookupF, mem_fieldKeys_iff_lookupF, lookupF_dedupFields]

theorem lookupF_restFields_mem (fs : Fields) (ks : List String) (k : String)
    (h : k ∈ ks) : lookupF (restFields fs ks) k = none := by
  apply lookupF_filter_none
  intro v
  simp [h]

theorem lookupF_restFields_not_mem (fs : Fields) (ks : List String) (k : String)
    (h : k ∉ ks) : lookupF (restFields fs ks) k = lookupF fs k := by
  apply lookupF_filter
  intro v
  simp [h]

theorem diffPass1_lookup (ents fb : Fields) (k : String)
    (hnd : (fieldKeys ents).Nodup) :
    lookupF (diffPass1 ents fb) k =
      (lookupF ents k).bind (fun va => diff va (getField fb k)) := by
  induction ents with
  | nil => simp [diffPass1, lookupF]
  | cons p rest ih =>
    obtain ⟨k0, va⟩ := p
    simp only [fieldKeys, List.map_cons, List.nodup_cons] at hnd
    have hk0 : k0 ∉ fieldKeys rest := hnd.1
    have hnd2 := hnd.2
    by_cases hk : k0 = k
    · subst hk
      simp only [lookupF, if_pos rfl, Option.bind_some]
      cases hd : diff va (getField fb k0) with
      | some d => simp [diffPass1, hd, lookupF]
      | none =>
        simp only [diffPass1, hd]
        rw [ih hnd2, (lookupF_none_iff rest k0).2 hk0]
        simp [hd]
    · simp only [lookupF, if_neg hk]
      cases hd : diff va (getField fb k0) with
      | some d => simp [diffPass1, hd, lookupF, hk, ih hnd2]
      | none => simp [diffPass1, hd, ih hnd2]

theorem diffPass2_lookup (fa ents : Fields) (k : String)
    (hnd : (fieldKeys ents).Nodup) :
    lookupF (diffPass2 fa ents) k =
      (lookupF ents k).bind (fun vb => diff (getField fa k) vb) := by
  induction ents with
  | nil => simp [diffPass2, lookupF]
  | cons p rest ih =>
    obtain ⟨k0, vb⟩ := p
    simp only [fieldKeys, List.map_cons, List.nodup_cons] at hnd
    have hk0 : k0 ∉ fieldKeys rest := hnd.1
    have hnd2 := hnd.2
    by_cases hk : k0 = k
    · subst hk
      simp only [lookupF, if_pos rfl, Option.bind_some]
      cases hd : diff (getField fa k0) vb with
      | some d => simp [diffPass2, hd, lookupF]
      | none =>
        simp only [diffPass2, hd]
        rw [ih hnd2, (lookupF_none_iff rest k0).2 hk0]
        simp [hd]
    · simp only [lookupF, if_neg hk]
      cases hd : diff (getField fa k0) vb with
      | some d => simp [diffPass2, hd, lookupF, hk, ih hnd2]
      | none => simp [diffPass2, hd, ih hnd2]

theorem diffRun_lookup (fa fb : Fields) (k : String) :
    lookupF (diffRun fa fb) k = diff (getField fa k) (getField fb k) := by
  rw [diffRun, lookupF_append,
    diffPass1_lookup _ _ _ (fieldKeys_dedupFields_nodup fa),
    diffPass2_lookup _ _ _ (fieldKeys_dedupFields_nodup _),
    lookupF_dedupFields, lookupF_dedupFields]
  by_cases hka : k ∈ fieldKeys fa
  · rw [lookupF_getField fa k hka, lookupF_restFields_mem fb (fieldKeys fa) k hka]
    cases hd : diff (getField fa k) (getField fb k) <;> simp [hd]
  · rw [(lookupF_none_iff fa k).2 hka,
      lookupF_restFields_not_mem fb (fieldKeys fa) k hka]
    cases hb : lookupF fb k with
    | some vb =>
      rw [getField_eq_lookupF fb k, hb]
      simp
    | none =>
      rw [getField_eq_lookupF fb k, hb, getField_of_not_mem fa k hka]
      simp [diff_vundefined]

end DiffCharacterization

section DeepEqLemmas

theorem deepEqPass1_iff (ents fb : Fields) :
    deepEqPass1 ents fb = true ↔ ∀ p ∈ ents, deepEq p.2 (getField fb p.1) = true := by
  induction ents with
  | nil => simp [deepEqPass1]
  | cons p rest ih =>
    obtain ⟨k, va⟩ := p
    simp [deepEqPass1, ih]

theorem deepEqPass2_iff (fa ents : Fields) :
    deepEqPass2 fa ents = true ↔ ∀ p ∈ ents, deepEq (getField fa p.1) p.2 = true := by
  induction ents with
  | nil => simp [deepEqPass2]
  | cons p rest ih =>
    obtain ⟨k, vb⟩ := p
    simp [deepEqPass2, ih]

theorem lookupF_of_mem_nodup (l : Fields) (p : String × Value)
    (hnd : (fieldKeys l).Nodup) (hm : p ∈ l) : lookupF l p.1 = some p.2 := by
  induction l with
  | nil => simp at hm
  | cons q rest ih =>
    obtain ⟨k2, v2⟩ := q
    simp only [fieldKeys, List.map_cons, List.nodup_cons] at hnd
    rcases List.mem_cons.1 hm with h | h
    · subst h
      simp [lookupF]
    · have hne : k2 ≠ p.1 := by
        intro he
        exact hnd.1 (he ▸ (List.mem_map.2 ⟨p, h, rfl⟩))
      simp [lookupF, hne, ih hnd.2 h]

theorem mem_dedupFields_val (fs : Fields) (p : String × Value)
    (hm : p ∈ dedupFields fs) : getField fs p.1 = p.2 := by
  have h1 := lookupF_of_mem_nodup (dedupFields fs) p (fieldKeys_dedupFields_nodup fs) hm
  rw [lookupF_dedupFields] at h1
  rw [getField_eq_lookupF, h1]
  rfl

theorem getField_mem_dedupFields (fs : Fields) (k : String)
    (h : k ∈ fieldKeys fs) : (k, getField fs k) ∈ dedupFields fs := by
  apply lookupF_mem
  rw [lookupF_dedupFields]
  exact lookupF_getField fs k h

theorem deepEq_not_obj (a b : Value) (h : (isObject a && isObject b) = false) :
    deepEq a b = strictEq a b := by
  rw [deepEq]
  simp [h]

theorem deepEq_vundefined : deepEq .vundefined .vundefined = true := by
  rw [deepEq]
  simp [isObject, strictEq]

theorem mem_fieldKeys_restFields (fs : Fields) (ks : List String) (k : String) :
    k ∈ fieldKeys (restFields fs ks) → k ∉ ks := by
  intro hm hk
  have h1 := (mem_fieldKeys_iff_lookupF _ k).1 hm
  exact h1 (lookupF_restFields_mem fs ks k hk)

theorem deepEq_obj_char (fa fb : Fields) :
    deepEq (.vobj fa) (.vobj fb) = true ↔
      ∀ k, deepEq (getField fa k) (getField fb k) = true := by
  rw [deepEq]
  simp only [isObject, Bool.and_self, objFields, dif_pos, Bool.and_eq_true]
  rw [deepEqPass1_iff, deepEqPass2_iff]
  constructor
  · rintro ⟨h1, h2⟩ k
    by_cases hka : k ∈ fieldKeys fa
    · have := h1 (k, getField fa k) (getField_mem_dedupFields fa k hka)
      simpa using this
    · by_cases hkb : k ∈ fieldKeys fb
      · have hkr : k ∈ fieldKeys (restFields fb (fieldKeys fa)) := by
          rw [mem_fieldKeys_iff_lookupF, lookupF_restFields_not_mem fb _ k hka]
          exact (mem_fieldKeys_iff_lookupF fb k).1 hkb
        have := h2 (k, getField (restFields fb (fieldKeys fa)) k)
          (getField_mem_dedupFields _ k hkr)
        have hgb : getField (restFields fb (fieldKeys fa)) k = getField fb k := by
          rw [getField_eq_lookupF, getField_eq_lookupF,
            lookupF_restFields_not_mem fb _ k hka]
        simpa [hgb] using this
      · rw [getField_of_not_mem fa k hka, getField_of_not_mem fb k hkb]
        exact deepEq_vundefined
  · intro h
    constructor
    · intro p hp
      have hv := mem_dedupFields_val fa p hp
      rw [← hv]
      exact h p.1
    · intro p hp
      have hv := mem_dedupFields_val _ p hp
      have hka : p.1 ∉ fieldKeys fa := by
        apply mem_fieldKeys_restFields fb (fieldKeys fa) p.1
        rw [← mem_fieldKeys_dedupFields]
        exact List.mem_map.2 ⟨p, hp, rfl⟩
      have hgb : getField fb p.1 = p.2 := by
        rw [getField_eq_lookupF]
        rw [getField_eq_lookupF, lookupF_restFields_not_mem fb _ p.1 hka] at hv
        exact hv
      rw [← hgb]
      exact h p.1

end DeepEqLemmas

section EquivalenceLemmas

theorem strictEq_isObject (a b : Value) (h : strictEq a b = true) :
    isObject a = isObject b := by
  cases a <;> cases b <;> simp_all [strictEq, isObject]

theorem strictEq_symm (a b : Value) (h : strictEq a b = true) :
    strictEq b a = true := by
  cases a <;> cases b <;> simp_all [strictEq] <;> omega

theorem strictEq_trans (a b c : Value) (h1 : strictEq a b = true)
    (h2 : strictEq b c = true) : strictEq a c = true := by
  cases a <;> cases b <;> cases c <;> simp_all [strictEq]

theorem strictEq_implies_deepEq (a b : Value) (h : strictEq a b = true) :
    deepEq a b = true := by
  cases a <;> cases b <;> simp_all [strictEq, deepEq_not_obj, isObject] <;>
    simp [deepEq_not_obj, strictEq, isObject]

theorem deepEq_refl (v : Value) : deepEq v v = true := by
  have H : ∀ (n : Nat) (v : Value), sizeOf v ≤ n → deepEq v v = true := by
    intro n
    induction n with
    | zero =>
      intro v h
      have := value_sizeOf_pos v
      omega
    | succ n ih =>
      intro v h
      match v with
      | .vobj fs =>
        rw [deepEq_obj_char]
        intro k
        apply ih
        have := getField_sizeOf_lt fs k
        simp only [Value.vobj.sizeOf_spec] at h
        omega
      | .vstr s => rw [deepEq_not_obj _ _ (by simp [isObject])]; simp [strictEq]
      | .vint m => rw [deepEq_not_obj _ _ (by simp [isObject])]; simp [strictEq]
      | .vbool x => rw [deepEq_not_obj _ _ (by simp [isObject])]; simp [strictEq]
      | .vnull => rw [deepEq_not_obj _ _ (by simp [isObject])]; simp [strictEq]
      | .vundefined => rw [deepEq_not_obj _ _ (by simp [isObject])]; simp [strictEq]
      | .varr r es => rw [deepEq_not_obj _ _ (by simp [isObject])]; simp [strictEq]
      | .vfunc r => rw [deepEq_not_obj _ _ (by simp [isObject])]; simp [strictEq]
  exact H (sizeOf v) v le_rfl

theorem deepEq_symm (a b : Value) (h : deepEq a b = true) : deepEq b a = true := by
  have H : ∀ (n : Nat) (a b : Value), sizeOf a + sizeOf b ≤ n →
      deepEq a b = true → deepEq b a = true := by
    intro n
    induction n with
    | zero =>
      intro a b hn
      have := value_sizeOf_pos a
      omega
    | succ n ih =>
      intro a b hn hab
      match a, b with
      | .vobj fa, .vobj fb =>
        rw [deepEq_obj_char] at hab ⊢
        intro k
        apply ih _ _ (by
          have h1 := getField_sizeOf_lt fa k
          have h2 := getField_sizeOf_lt fb k
          simp only [Value.vobj.sizeOf_spec] at hn
          omega)
        exact hab k
      | .vobj fa, .vstr s => simp [deepEq_not_obj, isObject, strictEq] at hab
      | .vobj fa, .vint m => simp [deepEq_not_obj, isObject, strictEq] at hab
      | .vobj fa, .vbool x => simp [deepEq_not_obj, isObject, strictEq] at hab
      | .vobj fa, .vnull => simp [deepEq_not_obj, isObject, strictEq] at hab
      | .vobj fa, .vundefined => simp [deepEq_not_obj, isObject, strictEq] at hab
      | .vobj fa, .varr r es => simp [deepEq_not_obj, isObject, strictEq] at hab
      | .vobj fa, .vfunc r => simp [deepEq_not_obj, isObject, strictEq] at hab
      | .vstr s, b => 
        rw [deepEq_not_obj _ _ (by simp [isObject])] at hab
        rw [deepEq_not_obj _ _ (by
          rw [← strictEq_isObject _ _ hab]
          simp [isObject])]
        exact strictEq_symm _ _ hab
      | .vint m, b =>
        rw [deepEq_not_obj _ _ (by simp [isObject])] at hab
        rw [deepEq_not_obj _ _ (by
          rw [← strictEq_isObject _ _ hab]
          simp [isObject])]
        exact strictEq_symm _ _ hab
      | .vbool x, b =>
        rw [deepEq_not_obj _ _ (by simp [isObject])] at hab
        rw [deepEq_not_obj _ _ (by
          rw [← strictEq_isObject _ _ hab]
          simp [isObject])]
        exact strictEq_symm _ _ hab
      | .vnull, b =>
        rw [deepEq_not_obj _ _ (by simp [isObject])] at hab
        rw [deepEq_not_obj _ _ (by
          rw [← strictEq_isObject _ _ hab]
          simp [isObject])]
        exact strictEq_symm _ _ hab
      | .vundefined, b =>
        rw [deepEq_not_obj _ _ (by simp [isObject])] at hab
        rw [deepEq_not_obj _ _ (by
          rw [← strictEq_isObject _ _ hab]
          simp [isObject])]
        exact strictEq_symm _ _ hab
      | .varr r es, b =>
        rw [deepEq_not_obj _ _ (by simp [isObject])] at hab
        rw [deepEq_not_obj _ _ (by
          rw [← strictEq_isObject _ _ hab]
          simp [isObject])]
        exact strictEq_symm _ _ hab
      | .vfunc r, b =>
        rw [deepEq_not_obj _ _ (by simp [isObject])] at hab
        rw [deepEq_not_obj _ _ (by
          rw [← strictEq_isObject _ _ hab]
          simp [isObject])]
        exact strictEq_symm _ _ hab
  exact H (sizeOf a + sizeOf b) a b le_rfl h

end EquivalenceLemmas

theorem isObject_of_deepEq (a b : Value) (h : deepEq a b = true) :
    isObject a = isObject b := by
  by_cases hab : (isObject a && isObject b) = true
  · simp at hab
    rw [hab.1, hab.2]
  · rw [deepEq_not_obj _ _ (by simpa using hab)] at h
    exact strictEq_isObject _ _ h

theorem isObject_obj (a : Value) (h : isObject a = true) :
    ∃ fs, a = .vobj fs := by
  cases a <;> simp_all [isObject]

theorem deepEq_trans (a b c : Value) (h1 : deepEq a b = true)
    (h2 : deepEq b c = true) : deepEq a c = true := by
  have H : ∀ (n : Nat) (a b c : Value), sizeOf a + sizeOf b + sizeOf c ≤ n →
      deepEq a b = true → deepEq b c = true → deepEq a c = true := by
    intro n
    induction n with
    | zero =>
      intro a b c hn
      have := value_sizeOf_pos a
      omega
    | succ n ih =>
      intro a b c hn h1 h2
      by_cases ha : isObject a = true
      · have hb : isObject b = true := (isObject_of_deepEq a b h1) ▸ ha
        have hc : isObject c = true := (isObject_of_deepEq b c h2) ▸ hb
        obtain ⟨fa, rfl⟩ := isObject_obj a ha
        obtain ⟨fb, rfl⟩ := isObject_obj b hb
        obtain ⟨fc, rfl⟩ := isObject_obj c hc
        rw [deepEq_obj_char] at h1 h2 ⊢
        intro k
        apply ih _ _ _ (by
          have g1 := getField_sizeOf_lt fa k
          have g2 := getField_sizeOf_lt fb k
          have g3 := getField_sizeOf_lt fc k
          simp only [Value.vobj.sizeOf_spec] at hn
          omega) (h1 k) (h2 k)
      · have hab : (isObject a && isObject b) = false := by
          simp [Bool.eq_false_iff.2 ha]
        have hb : isObject b = false :=
          by rw [← isObject_of_deepEq a b h1]; exact Bool.eq_false_iff.2 ha
        have hbc : (isObject b && isObject c) = false := by simp [hb]
        have hc : isObject c = false := by rw [← isObject_of_deepEq b c h2]; exact hb
        have hac : (isObject a && isObject c) = false := by simp [hc]
        rw [deepEq_not_obj _ _ hab] at h1
        rw [deepEq_not_obj _ _ hbc] at h2
        rw [deepEq_not_obj _ _ hac]
        exact strictEq_trans a b c h1 h2
  exact H (sizeOf a + sizeOf b + sizeOf c) a b c le_rfl h1 h2

theorem isEmpty_diffRun_iff (fa fb : Fields) :
    (diffRun fa fb).isEmpty = true ↔
      ∀ k, diff (getField fa k) (getField fb k) = none := by
  constructor
  · intro h k
    rw [← diffRun_lookup]
    rcases he : diffRun fa fb with _ | ⟨p, rest⟩
    · simp [lookupF]
    · rw [he] at h
      simp at h
  · intro h
    rcases he : diffRun fa fb with _ | ⟨p, rest⟩
    · simp
    · exfalso
      have h1 := diffRun_lookup fa fb p.1
      rw [he] at h1
      have h2 : lookupF (p :: rest) p.1 = some p.2 := by
        obtain ⟨k, v⟩ := p
        simp [lookupF]
      rw [h2, h p.1] at h1
      simp at h1

theorem diff_none_iff (a b : Value) : diff a b = none ↔ deepEq a b = true := by
  have H : ∀ (n : Nat) (a b : Value), sizeOf a + sizeOf b ≤ n →
      (diff a b = none ↔ deepEq a b = true) := by
    intro n
    induction n with
    | zero =>
      intro a b hn
      have := value_sizeOf_pos a
      have := value_sizeOf_pos b
      omega
    | succ n ih =>
      intro a b hn
      by_cases hob : (isObject a && isObject b) = true
      · simp only [Bool.and_eq_true] at hob
        obtain ⟨fa, rfl⟩ := isObject_obj a hob.1
        obtain ⟨fb, rfl⟩ := isObject_obj b hob.2
        have hsz : ∀ k : String,
            sizeOf (getField fa k) + sizeOf (getField fb k) ≤ n := by
          intro k
          have g1 := getField_sizeOf_lt fa k
          have g2 := getField_sizeOf_lt fb k
          simp only [Value.vobj.sizeOf_spec] at hn
          omega
        rw [diff_obj, deepEq_obj_char]
        constructor
        · intro h
          by_cases hemp : (diffRun fa fb).isEmpty = true
          · intro k
            have hk := (isEmpty_diffRun_iff fa fb).1 hemp k
            exact (ih _ _ (hsz k)).1 hk
          · rw [if_neg hemp] at h
            exact absurd h (by simp)
        · intro h
          have hemp : (diffRun fa fb).isEmpty = true :=
            (isEmpty_diffRun_iff fa fb).2 (fun k => (ih _ _ (hsz k)).2 (h k))
          rw [if_pos hemp]
      · rw [diff_not_obj a b (by simpa using hob),
          deepEq_not_obj a b (by simpa using hob)]
        by_cases hse : strictEq a b = true
        · simp [hse]
        · simp [hse]
  exact H (sizeOf a + sizeOf b) a b le_rfl

section ApplyDiffLemmas

theorem shallowCopy_eq (v : Value) : shallowCopy v = v := by
  cases v <;> rfl

theorem applyDiff_none (v : Value) (dir : String) :
    applyDiff v none dir = shallowCopy v := by
  rw [applyDiff]

theorem applyDiff_prim (v dv : Value) (dir : String)
    (h : isPrimitiveDiff dv = true) :
    applyDiff v (some dv) dir = getFieldV (getFieldV dv "_diff") dir := by
  rw [applyDiff]
  simp [h]

theorem applyDiff_obj (fs ds : Fields) (dir : String)
    (h1 : isPrimitiveDiff (.vobj ds) = false)
    (h2 : isObjectDiff (.vobj ds) = true) :
    applyDiff (.vobj fs) (some (.vobj ds)) dir =
      .vobj (applyLoop dir (dedupFields ds) fs) := by
  rw [applyDiff]
  simp [h1, h2, shallowCopy, isObject, objFields]

theorem applyDiff_fallback (v dv : Value) (dir : String)
    (h1 : isPrimitiveDiff dv = false)
    (h2 : (isObject (shallowCopy v) && isObjectDiff dv) = false) :
    applyDiff v (some dv) dir = .vundefined := by
  rw [applyDiff]
  simp [h1, h2]

theorem applyLoop_get (dir : String) (k : String) :
    ∀ (ents : Fields), (fieldKeys ents).Nodup → ∀ (acc : Fields),
      getField (applyLoop dir ents acc) k =
        (match lookupF ents k with
         | some sub => applyDiff (getField acc k) (some sub) dir
         | none => getField acc k) := by
  intro ents
  induction ents with
  | nil =>
    intro _ acc
    simp [applyLoop, lookupF]
  | cons p rest ih =>
    intro hnd acc
    obtain ⟨k0, sub0⟩ := p
    simp only [fieldKeys, List.map_cons, List.nodup_cons] at hnd
    rw [applyLoop]
    rw [ih hnd.2]
    by_cases hk : k0 = k
    · subst hk
      have hn : lookupF rest k0 = none := (lookupF_none_iff rest k0).2 hnd.1
      simp [lookupF, hn, getField_setKey_self]
    · have hne : k ≠ k0 := fun he => hk he.symm
      rw [getField_setKey_ne acc k0 k _ hne]
      simp [lookupF, hk]

end ApplyDiffLemmas

section ClassifierLemmas

theorem isPrimitiveDiff_primDiff (a b : Value) :
    isPrimitiveDiff (primDiff a b) = true := by
  simp [isPrimitiveDiff, primDiff, hasOwnProp, getFieldV, getField, fieldKeys,
    isNullish, numOwnKeys, dedupFields, isObject]

theorem isPrimitiveDiff_no_key (ds : Fields) (h : "_diff" ∉ fieldKeys ds) :
    isPrimitiveDiff (.vobj ds) = false := by
  simp [isPrimitiveDiff, isObject, hasOwnProp, h]

theorem isObjectDiff_no_key (ds : Fields) (h : "_diff" ∉ fieldKeys ds) :
    isObjectDiff (.vobj ds) = true := by
  simp [isObjectDiff, isObject, hasOwnProp, h]

theorem applyDiff_primDiff_a (v a b : Value) :
    applyDiff v (some (primDiff a b)) "a" = a := by
  rw [applyDiff_prim v _ _ (isPrimitiveDiff_primDiff a b)]
  simp [primDiff, getFieldV, getField]

theorem applyDiff_primDiff_b (v a b : Value) :
    applyDiff v (some (primDiff a b)) "b" = b := by
  rw [applyDiff_prim v _ _ (isPrimitiveDiff_primDiff a b)]
  simp [primDiff, getFieldV, getField]

end ClassifierLemmas

section NoDiffKeyLemmas

theorem noDiffKey_vundefined : noDiffKey .vundefined = true := by
  rw [noDiffKey.eq_def]

theorem noDiffKey_no_key (fs : Fields) (h : noDiffKey (.vobj fs) = true) :
    "_diff" ∉ fieldKeys fs := by
  rw [noDiffKey] at h
  simp only [Bool.and_eq_true, Bool.not_eq_eq_eq_not, Bool.not_true] at h
  intro hm
  have h1 := h.1
  simp at h1
  exact h1 hm

theorem noDiffKeyF_getField (fs : Fields) (k : String)
    (h : noDiffKeyF fs = true) : noDiffKey (getField fs k) = true := by
  induction fs with
  | nil =>
    rw [getField]
    exact noDiffKey_vundefined
  | cons p rest ih =>
    obtain ⟨k2, v⟩ := p
    rw [noDiffKeyF] at h
    simp only [Bool.and_eq_true] at h
    by_cases hk : k2 = k
    · simpa [getField, hk] using h.1
    · simpa [getField, hk] using ih h.2

theorem noDiffKey_getField (fs : Fields) (k : String)
    (h : noDiffKey (.vobj fs) = true) : noDiffKey (getField fs k) = true := by
  rw [noDiffKey] at h
  simp only [Bool.and_eq_true] at h
  exact noDiffKeyF_getField fs k h.2

end NoDiffKeyLemmas

section RoundTrip

theorem fieldKeys_diffRun_sub (fa fb : Fields) (k : String)
    (hk : k ∈ fieldKeys (diffRun fa fb)) :
    k ∈ fieldKeys fa ∨ k ∈ fieldKeys fb := by
  by_contra hc
  push_neg at hc
  have h1 := (mem_fieldKeys_iff_lookupF _ k).1 hk
  rw [diffRun_lookup, getField_of_not_mem fa k hc.1,
    getField_of_not_mem fb k hc.2, diff_vundefined] at h1
  exact h1 rfl

theorem diffRun_no_diff_key (fa fb : Fields)
    (ha : "_diff" ∉ fieldKeys fa) (hb : "_diff" ∉ fieldKeys fb) :
    "_diff" ∉ fieldKeys (diffRun fa fb) := by
  intro hm
  rcases fieldKeys_diffRun_sub fa fb _ hm with h | h
  · exact ha h
  · exact hb h

theorem roundTripGen (a b t : Value)
    (hna : noDiffKey a = true) (hnb : noDiffKey b = true) :
    (deepEq t b = true → deepEq (applyDiff t (diff a b) "a") a = true) ∧
    (deepEq t a = true → deepEq (applyDiff t (diff a b) "b") b = true) := by
  have H : ∀ (n : Nat) (a b t : Value), sizeOf a + sizeOf b ≤ n →
      noDiffKey a = true → noDiffKey b = true →
      (deepEq t b = true → deepEq (applyDiff t (diff a b) "a") a = true) ∧
      (deepEq t a = true → deepEq (applyDiff t (diff a b) "b") b = true) := by
    intro n
    induction n with
    | zero =>
      intro a b t hn
      have := value_sizeOf_pos a
      have := value_sizeOf_pos b
      omega
    | succ n ih =>
      intro a b t hn hna hnb
      by_cases hob : (isObject a && isObject b) = true
      · -- both plain objects
        simp only [Bool.and_eq_true] at hob
        obtain ⟨fa, rfl⟩ := isObject_obj a hob.1
        obtain ⟨fb, rfl⟩ := isObject_obj b hob.2
        rw [diff_obj]
        by_cases hemp : (diffRun fa fb).isEmpty = true
        · rw [if_pos hemp]
          simp only [applyDiff_none, shallowCopy_eq]
          have hdn : diff (.vobj fa) (.vobj fb) = none := by
            rw [diff_obj, if_pos hemp]
          have hab := (diff_none_iff _ _).1 hdn
          exact ⟨fun htb => deepEq_trans t _ _ htb (deepEq_symm _ _ hab),
            fun hta => deepEq_trans t _ _ hta hab⟩
        · rw [if_neg hemp]
          have hka : "_diff" ∉ fieldKeys fa := noDiffKey_no_key fa hna
          have hkb : "_diff" ∉ fieldKeys fb := noDiffKey_no_key fb hnb
          have hkd := diffRun_no_diff_key fa fb hka hkb
          have hpd := isPrimitiveDiff_no_key _ hkd
          have hod := isObjectDiff_no_key _ hkd
          have hsz : ∀ k : String,
              sizeOf (getField fa k) + sizeOf (getField fb k) ≤ n := by
            intro k
            have g1 := getField_sizeOf_lt fa k
            have g2 := getField_sizeOf_lt fb k
            simp only [Value.vobj.sizeOf_spec] at hn
            omega
          constructor
          · intro htb
            have htobj : isObject t = true := by
              rw [isObject_of_deepEq t _ htb]
              simp [isObject]
            obtain ⟨tf, rfl⟩ := isObject_obj t htobj
            rw [applyDiff_obj tf _ _ hpd hod, deepEq_obj_char]
            intro k
            rw [applyLoop_get "a" k (dedupFields (diffRun fa fb))
              (fieldKeys_dedupFields_nodup _) tf, lookupF_dedupFields,
              diffRun_lookup]
            have htk := (deepEq_obj_char tf fb).1 htb k
            cases hd : diff (getField fa k) (getField fb k) with
            | none =>
              have hfk := (diff_none_iff _ _).1 hd
              exact deepEq_trans _ _ _ htk (deepEq_symm _ _ hfk)
            | some sub =>
              have hih := (ih (getField fa k) (getField fb k) (getField tf k)
                (hsz k) (noDiffKey_getField fa k hna)
                (noDiffKey_getField fb k hnb)).1 htk
              rw [hd] at hih
              exact hih
          · intro hta
            have htobj : isObject t = true := by
              rw [isObject_of_deepEq t _ hta]
              simp [isObject]
            obtain ⟨tf, rfl⟩ := isObject_obj t htobj
            rw [applyDiff_obj tf _ _ hpd hod, deepEq_obj_char]
            intro k
            rw [applyLoop_get "b" k (dedupFields (diffRun fa fb))
              (fieldKeys_dedupFields_nodup _) tf, lookupF_dedupFields,
              diffRun_lookup]
            have htk := (deepEq_obj_char tf fa).1 hta k
            cases hd : diff (getField fa k) (getField fb k) with
            | none =>
              have hfk := (diff_none_iff _ _).1 hd
              exact deepEq_trans _ _ _ htk hfk
            | some sub =>
              have hih := (ih (getField fa k) (getField fb k) (getField tf k)
                (hsz k) (noDiffKey_getField fa k hna)
                (noDiffKey_getField fb k hnb)).2 htk
              rw [hd] at hih
              exact hih
      · -- at least one side is not a plain object
        rw [diff_not_obj a b (by simpa using hob)]
        by_cases hse : strictEq a b = true
        · rw [if_pos hse]
          simp only [applyDiff_none, shallowCopy_eq]
          have hab := strictEq_implies_deepEq a b hse
          exact ⟨fun htb => deepEq_trans t _ _ htb (deepEq_symm _ _ hab),
            fun hta => deepEq_trans t _ _ hta hab⟩
        · rw [if_neg hse]
          constructor
          · intro _
            rw [applyDiff_primDiff_a]
            exact deepEq_refl a
          · intro _
            rw [applyDiff_primDiff_b]
            exact deepEq_refl b
  exact H (sizeOf a + sizeOf b) a b t le_rfl hna hnb

end RoundTrip

section ProducedDiffStructure

theorem fieldKeys_diffPass1_sublist (ents fb : Fields) :
    (fieldKeys (diffPass1 ents fb)).Sublist (fieldKeys ents) := by
  induction ents with
  | nil => simp [diffPass1, fieldKeys]
  | cons p rest ih =>
    obtain ⟨k, va⟩ := p
    cases hd : diff va (getField fb k) with
    | some d =>
      simp only [diffPass1, hd, fieldKeys, List.map_cons]
      exact List.Sublist.cons₂ _ ih
    | none =>
      simp only [diffPass1, hd, fieldKeys, List.map_cons]
      exact List.Sublist.cons _ ih

theorem fieldKeys_diffPass2_sublist (fa ents : Fields) :
    (fieldKeys (diffPass2 fa ents)).Sublist (fieldKeys ents) := by
  induction ents with
  | nil => simp [diffPass2, fieldKeys]
  | cons p rest ih =>
    obtain ⟨k, vb⟩ := p
    cases hd : diff (getField fa k) vb with
    | some d =>
      simp only [diffPass2, hd, fieldKeys, List.map_cons]
      exact List.Sublist.cons₂ _ ih
    | none =>
      simp only [diffPass2, hd, fieldKeys, List.map_cons]
      exact List.Sublist.cons _ ih

theorem fieldKeys_diffRun_nodup (fa fb : Fields) :
    (fieldKeys (diffRun fa fb)).Nodup := by
  rw [diffRun]
  rw [show fieldKeys (diffPass1 (dedupFields fa) fb ++
      diffPass2 fa (dedupFields (restFields fb (fieldKeys fa)))) =
    fieldKeys (diffPass1 (dedupFields fa) fb) ++
      fieldKeys (diffPass2 fa (dedupFields (restFields fb (fieldKeys fa)))) from
    List.map_append _ _ _]
  apply List.Nodup.append
  · exact (fieldKeys_diffPass1_sublist _ _).nodup (fieldKeys_dedupFields_nodup fa)
  · exact (fieldKeys_diffPass2_sublist _ _).nodup (fieldKeys_dedupFields_nodup _)
  · intro k hk1 hk2
    have h1 : k ∈ fieldKeys (dedupFields fa) :=
      (fieldKeys_diffPass1_sublist _ _).subset hk1
    rw [mem_fieldKeys_dedupFields] at h1
    have h2 : k ∈ fieldKeys (dedupFields (restFields fb (fieldKeys fa))) :=
      (fieldKeys_diffPass2_sublist _ _).subset hk2
    rw [mem_fieldKeys_dedupFields] at h2
    exact mem_fieldKeys_restFields fb (fieldKeys fa) k h2 h1

theorem mem_diffRun (fa fb : Fields) (p : String × Value)
    (hm : p ∈ diffRun fa fb) :
    diff (getField fa p.1) (getField fb p.1) = some p.2 := by
  rw [← diffRun_lookup]
  exact lookupF_of_mem_nodup _ p (fieldKeys_diffRun_nodup fa fb) hm

/-- Shape invariant of every diff the engine produces: a leaf built from two
strictly different values, or a mapping with at least one key all of whose
entries again have this shape. -/
inductive ProducedDiff : Value → Prop where
  | leaf (a b : Value) : strictEq a b = false → ProducedDiff (primDiff a b)
  | node (ds : Fields) : ds ≠ [] → (∀ p ∈ ds, ProducedDiff (Prod.snd p)) →
      ProducedDiff (.vobj ds)

theorem diff_produced (a b : Value) (d : Value) (h : diff a b = some d) :
    ProducedDiff d := by
  have H : ∀ (n : Nat) (a b d : Value), sizeOf a + sizeOf b ≤ n →
      diff a b = some d → ProducedDiff d := by
    intro n
    induction n with
    | zero =>
      intro a b d hn
      have := value_sizeOf_pos a
      have := value_sizeOf_pos b
      omega
    | succ n ih =>
      intro a b d hn h
      by_cases hob : (isObject a && isObject b) = true
      · simp only [Bool.and_eq_true] at hob
        obtain ⟨fa, rfl⟩ := isObject_obj a hob.1
        obtain ⟨fb, rfl⟩ := isObject_obj b hob.2
        rw [diff_obj] at h
        by_cases hemp : (diffRun fa fb).isEmpty = true
        · rw [if_pos hemp] at h
          exact absurd h (by simp)
        · rw [if_neg hemp] at h
          obtain rfl : Value.vobj (diffRun fa fb) = d := by
            exact Option.some_injective _ h
          apply ProducedDiff.node
          · intro he
            rw [he] at hemp
            simp at hemp
          · intro p hp
            have hd := mem_diffRun fa fb p hp
            apply ih (getField fa p.1) (getField fb p.1) _ _ hd
            have g1 := getField_sizeOf_lt fa p.1
            have g2 := getField_sizeOf_lt fb p.1
            simp only [Value.vobj.sizeOf_spec] at hn
            omega
      · rw [diff_not_obj a b (by simpa using hob)] at h
        by_cases hse : strictEq a b = true
        · rw [if_pos hse] at h
          exact absurd h (by simp)
        · rw [if_neg hse] at h
          obtain rfl : primDiff a b = d := Option.some_injective _ h
          exact ProducedDiff.leaf a b (Bool.eq_false_iff.2 hse)
  exact H (sizeOf a + sizeOf b) a b d le_rfl h

end ProducedDiffStructure

section Evaluation

/-! The preceding definitions follow the source's recursion structure and are
compiled by well-founded recursion, which the kernel cannot reduce; concrete
runs of the engine are therefore carried out on fuel-indexed mirrors below,
which recurse structurally on the fuel and are proved to agree with the
originals whenever the fuel covers the input size. -/

/-- `Object.keys`-style first-occurrence deduplication, written with an
accumulator of already-seen keys so that it recurses structurally. -/
def dedupFieldsE (seen : List String) (fs : Fields) : Fields :=
  match fs with
  | [] => []
  | (k, v) :: rest =>
    if seen.contains k then dedupFieldsE seen rest
    else (k, v) :: dedupFieldsE (k :: seen) rest

theorem restFields_cons_mem (k : String) (v : Value) (rest : Fields)
    (seen : List String) (hc : seen.contains k = true) :
    restFields ((k, v) :: rest) seen = restFields rest seen := by
  have hm : k ∈ seen := by simpa using hc
  simp [restFields, List.filter, hm]

theorem restFields_cons_not_mem (k : String) (v : Value) (rest : Fields)
    (seen : List String) (hc : seen.contains k = false) :
    restFields ((k, v) :: rest) seen = (k, v) :: restFields rest seen := by
  have hm : k ∉ seen := by simpa using hc
  simp [restFields, List.filter, hm]

theorem restFields_cons_key (l : Fields) (k : String) (seen : List String) :
    restFields l (k :: seen) =
      (restFields l seen).filter (fun p => p.1 ≠ k) := by
  induction l with
  | nil => rfl
  | cons q t iht =>
    obtain ⟨k2, v2⟩ := q
    by_cases h2 : k2 ∈ seen
    · have e1 : restFields ((k2, v2) :: t) (k :: seen) = restFields t (k :: seen) := by
        simp [restFields, List.filter, List.mem_cons, h2]
      have e2 : restFields ((k2, v2) :: t) seen = restFields t seen := by
        simp [restFields, List.filter, h2]
      rw [e1, e2, iht]
    · by_cases h1 : k2 = k
      · subst h1
        have e1 : restFields ((k2, v2) :: t) (k2 :: seen) =
            restFields t (k2 :: seen) := by
          simp [restFields, List.filter]
        have e2 : restFields ((k2, v2) :: t) seen =
            (k2, v2) :: restFields t seen := by
          simp [restFields, List.filter, h2]
        rw [e1, e2, iht]
        simp [List.filter]
      · have e1 : restFields ((k2, v2) :: t) (k :: seen) =
            (k2, v2) :: restFields t (k :: seen) := by
          simp [restFields, List.filter, List.mem_cons, h1, h2]
        have e2 : restFields ((k2, v2) :: t) seen =
            (k2, v2) :: restFields t seen := by
          simp [restFields, List.filter, h2]
        rw [e1, e2, iht]
        simp [List.filter, h1]

theorem dedupFieldsE_gen (fs : Fields) : ∀ seen : List String,
    dedupFieldsE seen fs = dedupFields (restFields fs seen) := by
  induction fs with
  | nil =>
    intro seen
    simp [dedupFieldsE, restFields, dedupFields]
  | cons p rest ih =>
    intro seen
    obtain ⟨k, v⟩ := p
    cases hc : seen.contains k with
    | true =>
      rw [dedupFieldsE]
      rw [if_pos hc, ih seen, restFields_cons_mem k v rest seen hc]
    | false =>
      rw [dedupFieldsE]
      rw [if_neg (by rw [hc]; simp), ih (k :: seen),
        restFields_cons_not_mem k v rest seen hc]
      rw [dedupFields, restFields_cons_key]

theorem restFields_nil (fs : Fields) : restFields fs [] = fs := by
  simp [restFields]

theorem dedupFieldsE_eq (fs : Fields) : dedupFieldsE [] fs = dedupFields fs := by
  rw [dedupFieldsE_gen fs [], restFields_nil]

/-- Kernel-reducible twin of `numOwnKeys`. -/
def numOwnKeysE (v : Value) : Nat :=
  match v with
  | .vobj fs => (dedupFieldsE [] fs).length
  | .varr _ es => es.length
  | .vstr s => s.length
  | _ => 0

theorem numOwnKeysE_eq (v : Value) : numOwnKeysE v = numOwnKeys v := by
  cases v <;> simp [numOwnKeysE, numOwnKeys, dedupFieldsE_eq]

/-- Kernel-reducible twin of `isPrimitiveDiff`. -/
def isPrimitiveDiffE (value : Value) : Bool :=
  isObject value &&
  hasOwnProp value "_diff" &&
  (!isNullish (getFieldV value "_diff") &&
    hasOwnProp (getFieldV value "_diff") "a" &&
    hasOwnProp (getFieldV value "_diff") "b" &&
    numOwnKeysE (getFieldV value "_diff") == 2)

theorem isPrimitiveDiffE_eq (value : Value) :
    isPrimitiveDiffE value = isPrimitiveDiff value := by
  rw [isPrimitiveDiffE, isPrimitiveDiff, numOwnKeysE_eq]

/-- Fuel-indexed twin of `diff`; the two passes are inlined as `filterMap`s. -/
def diffFuel (n : Nat) (a b : Value) : Option Value :=
  match n with
  | 0 => none
  | n + 1 =>
    if isObject a && isObject b then
      let ds :=
        (dedupFieldsE [] (objFields a)).filterMap
          (fun p => (diffFuel n p.2 (getField (objFields b) p.1)).map
            (fun d => (p.1, d))) ++
        (dedupFieldsE []
            (restFields (objFields b) (fieldKeys (objFields a)))).filterMap
          (fun p => (diffFuel n (getField (objFields a) p.1) p.2).map
            (fun d => (p.1, d)))
      if ds.isEmpty then none else some (.vobj ds)
    else
      if strictEq a b then none else some (primDiff a b)

/-- Fuel-indexed twin of `deepEq`; the two passes are inlined as `all`s. -/
def deepEqFuel (n : Nat) (a b : Value) : Bool :=
  match n with
  | 0 => false
  | n + 1 =>
    if isObject a && isObject b then
      (dedupFieldsE [] (objFields a)).all
        (fun p => deepEqFuel n p.2 (getField (objFields b) p.1)) &&
      (dedupFieldsE []
          (restFields (objFields b) (fieldKeys (objFields a)))).all
        (fun p => deepEqFuel n (getField (objFields a) p.1) p.2)
    else
      strictEq a b

/-- Fuel-indexed twin of `applyDiff`; the key loop is inlined as a `foldl`. -/
def applyDiffFuel (n : Nat) (originalValue : Value) (d : Option Value)
    (dir : String) : Value :=
  match n with
  | 0 => .vundefined
  | n + 1 =>
    match d with
    | none => shallowCopy originalValue
    | some dv =>
      if isPrimitiveDiffE dv then
        getFieldV (getFieldV dv "_diff") dir
      else
        let result := shallowCopy originalValue
        if isObject result && isObjectDiff dv then
          .vobj ((dedupFieldsE [] (objFields dv)).foldl
            (fun acc p =>
              setKey acc p.1 (applyDiffFuel n (getField acc p.1) (some p.2) dir))
            (objFields result))
        else
          .vundefined

theorem mem_fields_sizeOf (fs : Fields) (p : String × Value) (h : p ∈ fs) :
    sizeOf p.2 < sizeOf fs := by
  induction fs with
  | nil => simp at h
  | cons q rest ih =>
    rcases List.mem_cons.1 h with h1 | h1
    · subst h1
      simp only [List.cons.sizeOf_spec]
      have : sizeOf p = 1 + sizeOf p.1 + sizeOf p.2 := by
        obtain ⟨x, y⟩ := p
        simp
      omega
    · have := ih h1
      simp only [List.cons.sizeOf_spec]
      omega

theorem mem_dedupFields_mem (fs : Fields) (p : String × Value)
    (h : p ∈ dedupFields fs) : p ∈ fs := by
  have H : ∀ (n : Nat) (gs : Fields), gs.length ≤ n →
      p ∈ dedupFields gs → p ∈ gs := by
    intro n
    induction n with
    | zero =>
      intro gs hl hm
      match gs with
      | [] => simpa [dedupFields] using hm
      | _ :: _ => simp at hl
    | succ n ih =>
      intro gs hl hm
      match gs with
      | [] => simpa [dedupFields] using hm
      | (k, v) :: rest =>
        rw [dedupFields] at hm
        rcases List.mem_cons.1 hm with h1 | h1
        · simp [h1]
        · have hlen : (rest.filter (fun q => q.1 ≠ k)).length ≤ n := by
            have := List.length_filter_le (fun q => decide (q.1 ≠ k)) rest
            simp at hl
            omega
          have := ih _ hlen h1
          exact List.mem_cons_of_mem _ (List.mem_filter.1 this).1
  exact H fs.length fs le_rfl h

theorem filterMap_diffPass1 (n : Nat) (fb : Fields) (ents : Fields)
    (h : ∀ p ∈ ents, diffFuel n p.2 (getField fb p.1) = diff p.2 (getField fb p.1)) :
    ents.filterMap
      (fun p => (diffFuel n p.2 (getField fb p.1)).map (fun d => (p.1, d))) =
      diffPass1 ents fb := by
  induction ents with
  | nil => simp [diffPass1]
  | cons p rest ih =>
    obtain ⟨k, va⟩ := p
    rw [List.filterMap_cons]
    have hh := h (k, va) (List.mem_cons_self _ _)
    simp only at hh
    rw [hh]
    have ihh := ih (fun q hq => h q (List.mem_cons_of_mem _ hq))
    cases hd : diff va (getField fb k) with
    | some d => simp [diffPass1, hd, ihh]
    | none => simp [diffPass1, hd, ihh]

theorem filterMap_diffPass2 (n : Nat) (fa : Fields) (ents : Fields)
    (h : ∀ p ∈ ents, diffFuel n (getField fa p.1) p.2 = diff (getField fa p.1) p.2) :
    ents.filterMap
      (fun p => (diffFuel n (getField fa p.1) p.2).map (fun d => (p.1, d))) =
      diffPass2 fa ents := by
  induction ents with
  | nil => simp [diffPass2]
  | cons p rest ih =>
    obtain ⟨k, vb⟩ := p
    rw [List.filterMap_cons]
    have hh := h (k, vb) (List.mem_cons_self _ _)
    simp only at hh
    rw [hh]
    have ihh := ih (fun q hq => h q (List.mem_cons_of_mem _ hq))
    cases hd : diff (getField fa k) vb with
    | some d => simp [diffPass2, hd, ihh]
    | none => simp [diffPass2, hd, ihh]

theorem diffFuel_correct : ∀ (n : Nat) (a b : Value),
    sizeOf a + sizeOf b ≤ n → diffFuel n a b = diff a b := by
  intro n
  induction n with
  | zero =>
    intro a b h
    have := value_sizeOf_pos a
    have := value_sizeOf_pos b
    omega
  | succ n ih =>
    intro a b h
    by_cases hob : (isObject a && isObject b) = true
    · have hob2 := hob
      simp only [Bool.and_eq_true] at hob2
      obtain ⟨fa, rfl⟩ := isObject_obj a hob2.1
      obtain ⟨fb, rfl⟩ := isObject_obj b hob2.2
      simp only [Value.vobj.sizeOf_spec] at h
      have e1 : (dedupFieldsE [] fa).filterMap
          (fun p => (diffFuel n p.2 (getField fb p.1)).map (fun d => (p.1, d))) =
          diffPass1 (dedupFields fa) fb := by
        rw [dedupFieldsE_eq]
        apply filterMap_diffPass1
        intro p hp
        apply ih
        have hm := mem_dedupFields_mem fa p hp
        have h1 := mem_fields_sizeOf fa p hm
        have h2 := getField_sizeOf_lt fb p.1
        omega
      have e2 : (dedupFieldsE [] (restFields fb (fieldKeys fa))).filterMap
          (fun p => (diffFuel n (getField fa p.1) p.2).map (fun d => (p.1, d))) =
          diffPass2 fa (dedupFields (restFields fb (fieldKeys fa))) := by
        rw [dedupFieldsE_eq]
        apply filterMap_diffPass2
        intro p hp
        apply ih
        have hm := mem_dedupFields_mem _ p hp
        have hmf : p ∈ fb := (List.mem_filter.1 hm).1
        have h1 := mem_fields_sizeOf fb p hmf
        have h2 := getField_sizeOf_lt fa p.1
        omega
      rw [diffFuel, diff_obj]
      simp only [isObject, Bool.and_self, if_true, objFields]
      rw [e1, e2, diffRun]
    · rw [diffFuel, diff_not_obj a b (by simpa using hob)]
      simp only [hob, Bool.false_eq_true, if_false]

theorem diff_eval (a b : Value) :
    diff a b = diffFuel (sizeOf a + sizeOf b) a b :=
  (diffFuel_correct (sizeOf a + sizeOf b) a b le_rfl).symm

theorem all_deepEqPass1 (n : Nat) (fb : Fields) (ents : Fields)
    (h : ∀ p ∈ ents, deepEqFuel n p.2 (getField fb p.1) = deepEq p.2 (getField fb p.1)) :
    ents.all (fun p => deepEqFuel n p.2 (getField fb p.1)) = deepEqPass1 ents fb := by
  induction ents with
  | nil => simp [deepEqPass1]
  | cons p rest ih =>
    obtain ⟨k, va⟩ := p
    rw [List.all_cons]
    have hh := h (k, va) (List.mem_cons_self _ _)
    simp only at hh
    rw [hh, ih (fun q hq => h q (List.mem_cons_of_mem _ hq))]
    rw [deepEqPass1]

theorem all_deepEqPass2 (n : Nat) (fa : Fields) (ents : Fields)
    (h : ∀ p ∈ ents, deepEqFuel n (getField fa p.1) p.2 = deepEq (getField fa p.1) p.2) :
    ents.all (fun p => deepEqFuel n (getField fa p.1) p.2) = deepEqPass2 fa ents := by
  induction ents with
  | nil => simp [deepEqPass2]
  | cons p rest ih =>
    obtain ⟨k, vb⟩ := p
    rw [List.all_cons]
    have hh := h (k, vb) (List.mem_cons_self _ _)
    simp only at hh
    rw [hh, ih (fun q hq => h q (List.mem_cons_of_mem _ hq))]
    rw [deepEqPass2]

theorem deepEqFuel_correct : ∀ (n : Nat) (a b : Value),
    sizeOf a + sizeOf b ≤ n → deepEqFuel n a b = deepEq a b := by
  intro n
  induction n with
  | zero =>
    intro a b h
    have := value_sizeOf_pos a
    have := value_sizeOf_pos b
    omega
  | succ n ih =>
    intro a b h
    by_cases hob : (isObject a && isObject b) = true
    · have hob2 := hob
      simp only [Bool.and_eq_true] at hob2
      obtain ⟨fa, rfl⟩ := isObject_obj a hob2.1
      obtain ⟨fb, rfl⟩ := isObject_obj b hob2.2
      simp only [Value.vobj.sizeOf_spec] at h
      have e1 : (dedupFieldsE [] fa).all
          (fun p => deepEqFuel n p.2 (getField fb p.1)) =
          deepEqPass1 (dedupFields fa) fb := by
        rw [dedupFieldsE_eq]
        apply all_deepEqPass1
        intro p hp
        apply ih
        have hm := mem_dedupFields_mem fa p hp
        have h1 := mem_fields_sizeOf fa p hm
        have h2 := getField_sizeOf_lt fb p.1
        omega
      have e2 : (dedupFieldsE [] (restFields fb (fieldKeys fa))).all
          (fun p => deepEqFuel n (getField fa p.1) p.2) =
          deepEqPass2 fa (dedupFields (restFields fb (fieldKeys fa))) := by
        rw [dedupFieldsE_eq]
        apply all_deepEqPass2
        intro p hp
        apply ih
        have hm := mem_dedupFields_mem _ p hp
        have hmf : p ∈ fb := (List.mem_filter.1 hm).1
        have h1 := mem_fields_sizeOf fb p hmf
        have h2 := getField_sizeOf_lt fa p.1
        omega
      rw [deepEqFuel, deepEq]
      simp only [isObject, Bool.and_self, if_true, dif_pos, objFields]
      rw [e1, e2]
    · rw [deepEqFuel, deepEq_not_obj a b (by simpa using hob)]
      simp only [hob, Bool.false_eq_true, if_false]

theorem deepEq_eval (a b : Value) :
    deepEq a b = deepEqFuel (sizeOf a + sizeOf b) a b :=
  (deepEqFuel_correct (sizeOf a + sizeOf b) a b le_rfl).symm

theorem foldl_applyLoop (n : Nat) (dir : String) : ∀ (ents : Fields),
    (∀ p ∈ ents, ∀ x : Value,
      applyDiffFuel n x (some p.2) dir = applyDiff x (some p.2) dir) →
    ∀ acc : Fields,
      ents.foldl
        (fun acc p =>
          setKey acc p.1 (applyDiffFuel n (getField acc p.1) (some p.2) dir))
        acc = applyLoop dir ents acc := by
  intro ents
  induction ents with
  | nil =>
    intro _ acc
    simp [applyLoop]
  | cons p rest ih =>
    intro h acc
    obtain ⟨k, sub⟩ := p
    rw [List.foldl_cons]
    have hh := h (k, sub) (List.mem_cons_self _ _) (getField acc k)
    simp only at hh
    rw [applyLoop]
    rw [ih (fun q hq => h q (List.mem_cons_of_mem _ hq))]
    rw [hh]

theorem applyDiffFuel_correct : ∀ (n : Nat) (v : Value) (d : Option Value)
    (dir : String), sizeOf d ≤ n → applyDiffFuel n v d dir = applyDiff v d dir := by
  intro n
  induction n with
  | zero =>
    intro v d dir h
    have : 0 < sizeOf d := by
      cases d <;> simp
    omega
  | succ n ih =>
    intro v d dir h
    match d with
    | none =>
      rw [applyDiffFuel, applyDiff_none]
    | some dv =>
      rw [applyDiffFuel, isPrimitiveDiffE_eq]
      by_cases hp : isPrimitiveDiff dv = true
      · rw [if_pos hp, applyDiff_prim v dv dir hp]
      · rw [if_neg (by simp [hp])]
        by_cases hio : (isObject (shallowCopy v) && isObjectDiff dv) = true
        · have hio2 := hio
          simp only [Bool.and_eq_true] at hio2
          have hvo : isObject v = true := by
            rw [← shallowCopy_eq v]
            exact hio2.1
          obtain ⟨fs, rfl⟩ := isObject_obj v hvo
          have hdo : isObject dv = true := by
            rw [isObjectDiff] at hio2
            have := hio2.2
            simp only [Bool.and_eq_true] at this
            exact this.1
          obtain ⟨ds, rfl⟩ := isObject_obj dv hdo
          rw [applyDiff_obj fs ds dir (Bool.eq_false_iff.2 hp) (by
            rw [isObjectDiff] at hio2 ⊢
            exact hio2.2)]
          simp only [shallowCopy, isObject, isObjectDiff, objFields]
          rw [dedupFieldsE_eq]
          rw [if_pos (by
            rw [isObjectDiff] at hio2
            simpa [isObject] using hio2.2)]
          congr 1
          apply foldl_applyLoop n dir (dedupFields ds) _ fs
          intro p hp2 x
          apply ih
          have hm := mem_dedupFields_mem ds p hp2
          have h1 := mem_fields_sizeOf ds p hm
          simp only [Option.some.sizeOf_spec, Value.vobj.sizeOf_spec] at h ⊢
          omega
        · rw [if_neg hio,
            applyDiff_fallback v dv dir (Bool.eq_false_iff.2 hp) (by simpa using hio)]

theorem applyDiff_eval (v : Value) (d : Option Value) (dir : String) :
    applyDiff v d dir = applyDiffFuel (sizeOf d) v d dir :=
  (applyDiffFuel_correct (sizeOf d) v d dir le_rfl).symm

end Evaluation

section ConcreteStates

/-- The nested mapping a = {person: {age: 45, name: "Jack"}}. -/
def personA : Value :=
  .vobj [("person", .vobj [("age", .vint 45), ("name", .vstr "Jack")])]

/-- The nested mapping b = {person: {age: 45, name: "Jim"}}. -/
def personB : Value :=
  .vobj [("person", .vobj [("age", .vint 45), ("name", .vstr "Jim")])]

/-- A state whose own "_diff" key holds a sub-mapping: {_diff: {a: 1, b: 2}}. -/
def clashA : Value := .vobj [("_diff", .vobj [("a", .vint 1), ("b", .vint 2)])]

/-- The state {_diff: {a: 1, b: 3}}. -/
def clashB : Value := .vobj [("_diff", .vobj [("a", .vint 1), ("b", .vint 3)])]

end ConcreteStates

/-- C1: for a = {person:{age:45,name:"Jack"}} and b = {person:{age:45,name:"Jim"}},
diff(a,b) is the ObjectDiff holding exactly one leaf PrimitiveDiff at key path
person.name with before "Jack" and after "Jim"; applying it forward (side "b")
to a gives a value deep-equal to b, and applying it backward (side "a") to b
gives a value deep-equal to a. -/
theorem c1_concrete_round_trip :
    diff personA personB =
      some (.vobj [("person",
        .vobj [("name", primDiff (.vstr "Jack") (.vstr "Jim"))])]) ∧
    deepEq (applyDiff personA (diff personA personB) "b") personB = true ∧
    deepEq (applyDiff personB (diff personA personB) "a") personA = true := by
  refine ⟨?_, ?_, ?_⟩
  · rw [diff_eval]
    rfl
  · simp only [deepEq_eval, applyDiff_eval, diff_eval]
    rfl
  · simp only [deepEq_eval, applyDiff_eval, diff_eval]
    rfl

/-- C2 as stated is false: for the chain s0 = s1 = s2 = {_diff:{a:1,b:2}} and
s3 = {_diff:{a:1,b:3}}, applying d3 = diff(s2,s3) backward to s3 and then
d2 = diff(s1,s2) backward to that result yields undefined, which is not
deep-equal to s1. -/
theorem c2_counterexample :
    deepEq
      (applyDiff (applyDiff clashB (diff clashA clashB) "a")
        (diff clashA clashA) "a")
      clashA = false := by
  simp only [deepEq_eval, applyDiff_eval, diff_eval]
  rfl

/-- C2 amended: for every chain of states s1, s2, s3 none of whose nested
mappings owns the reserved key "_diff", applying d3 = diff(s2,s3) backward
(side "a") to s3 yields a value deep-equal to s2, applying d2 = diff(s1,s2)
backward to that result reproduces a value deep-equal to s1, and applying d2
forward (side "b") to that reproduces a value deep-equal to s2. -/
theorem c2_multi_step_replay (s1 s2 s3 : Value)
    (h1 : noDiffKey s1 = true) (h2 : noDiffKey s2 = true)
    (h3 : noDiffKey s3 = true) :
    deepEq (applyDiff s3 (diff s2 s3) "a") s2 = true ∧
    deepEq (applyDiff (applyDiff s3 (diff s2 s3) "a") (diff s1 s2) "a") s1 = true ∧
    deepEq (applyDiff (applyDiff (applyDiff s3 (diff s2 s3) "a")
        (diff s1 s2) "a") (diff s1 s2) "b") s2 = true := by
  have step1 := (roundTripGen s2 s3 s3 h2 h3).1 (deepEq_refl s3)
  have step2 := (roundTripGen s1 s2 (applyDiff s3 (diff s2 s3) "a") h1 h2).1 step1
  have step3 := (roundTripGen s1 s2
    (applyDiff (applyDiff s3 (diff s2 s3) "a") (diff s1 s2) "a") h1 h2).2 step2
  exact ⟨step1, step2, step3⟩

/-- Witness for the amended C2 at the concrete chain {n:1}, {n:2}, {n:3}. -/
theorem c2_multi_step_replay_witness :
    deepEq (applyDiff (.vobj [("n", .vint 3)])
        (diff (.vobj [("n", .vint 2)]) (.vobj [("n", .vint 3)])) "a")
      (.vobj [("n", .vint 2)]) = true ∧
    deepEq (applyDiff (applyDiff (.vobj [("n", .vint 3)])
        (diff (.vobj [("n", .vint 2)]) (.vobj [("n", .vint 3)])) "a")
        (diff (.vobj [("n", .vint 1)]) (.vobj [("n", .vint 2)])) "a")
      (.vobj [("n", .vint 1)]) = true ∧
    deepEq (applyDiff (applyDiff (applyDiff (.vobj [("n", .vint 3)])
        (diff (.vobj [("n", .vint 2)]) (.vobj [("n", .vint 3)])) "a")
        (diff (.vobj [("n", .vint 1)]) (.vobj [("n", .vint 2)])) "a")
        (diff (.vobj [("n", .vint 1)]) (.vobj [("n", .vint 2)])) "b")
      (.vobj [("n", .vint 2)]) = true :=
  c2_multi_step_replay (.vobj [("n", .vint 1)]) (.vobj [("n", .vint 2)])
    (.vobj [("n", .vint 3)])
    (by simp [noDiffKey, noDiffKeyF, fieldKeys])
    (by simp [noDiffKey, noDiffKeyF, fieldKeys])
    (by simp [noDiffKey, noDiffKeyF, fieldKeys])

/-- C3: `applyDiff` is total in the embedding (it is a function into `Value`
and never raises); in particular, on every shape mismatch — the diff is
neither a PrimitiveDiff nor an ObjectDiff applicable to the base (e.g. the
base is a primitive while the diff is an ObjectDiff, or vice versa) — it
returns the defined fallback `undefined` instead of throwing. -/
theorem c3_apply_diff_mismatch_fallback (base dv : Value) (dir : String)
    (h1 : isPrimitiveDiff dv = false)
    (h2 : (isObject base && isObjectDiff dv) = false) :
    applyDiff base (some dv) dir = .vundefined := by
  apply applyDiff_fallback base dv dir h1
  rw [shallowCopy_eq]
  exact h2

/-- Witness for C3: applying the ObjectDiff {x: 1} to the primitive base 5
returns undefined. -/
theorem c3_apply_diff_mismatch_fallback_witness :
    applyDiff (.vint 5) (some (.vobj [("x", .vint 1)])) "b" = .vundefined :=
  c3_apply_diff_mismatch_fallback (.vint 5) (.vobj [("x", .vint 1)]) "b"
    (by rfl) (by rfl)

/-- C4: every pair of values equal under the documented equality (strict for
primitives, reference identity for lists/functions, deep key-order-insensitive
equality for mappings) produces no diff; in particular diff(v,v) is the
absence marker. -/
theorem c4_equal_values_no_diff (a b : Value) (h : deepEq a b = true) :
    diff a b = none ∧ diff a a = none :=
  ⟨(diff_none_iff a b).2 h, (diff_none_iff a a).2 (deepEq_refl a)⟩

/-- Witness for C4 at two deep-equal mappings differing in key order. -/
theorem c4_equal_values_no_diff_witness :
    diff (.vobj [("x", .vint 1), ("y", .vint 2)])
      (.vobj [("y", .vint 2), ("x", .vint 1)]) = none ∧
    diff (.vobj [("x", .vint 1), ("y", .vint 2)])
      (.vobj [("x", .vint 1), ("y", .vint 2)]) = none :=
  c4_equal_values_no_diff (.vobj [("x", .vint 1), ("y", .vint 2)])
    (.vobj [("y", .vint 2), ("x", .vint 1)])
    (by rw [deepEq_eval]; rfl)

/-- C5: when at least one side is not a plain mapping and the two sides are
not strictly equal (reference inequality for lists/functions — so two
distinct list instances with identical contents qualify), diff returns the
PrimitiveDiff holding exactly the two inputs verbatim, never a partial
ObjectDiff and never the absence marker. -/
theorem c5_non_mapping_prim_diff (a b : Value)
    (h1 : (isObject a && isObject b) = false) (h2 : strictEq a b = false) :
    diff a b = some (primDiff a b) := by
  rw [diff_not_obj a b h1, if_neg (by simp [h2])]

/-- Witness for C5: two separately constructed lists [1,2,3]. -/
theorem c5_non_mapping_prim_diff_witness :
    diff (.varr 0 [.vint 1, .vint 2, .vint 3])
      (.varr 1 [.vint 1, .vint 2, .vint 3]) =
      some (primDiff (.varr 0 [.vint 1, .vint 2, .vint 3])
        (.varr 1 [.vint 1, .vint 2, .vint 3])) :=
  c5_non_mapping_prim_diff (.varr 0 [.vint 1, .vint 2, .vint 3])
    (.varr 1 [.vint 1, .vint 2, .vint 3])
    (by rfl) (by rfl)

/-- C6: applying the absence marker is the identity up to deep equality (the
result is the structural shallow copy of the base; the pure embedding has no
mutation, so the base is untouched by construction). -/
theorem c6_noop_application_identity (x : Value) (dir : String) :
    deepEq (applyDiff x none dir) x = true := by
  rw [applyDiff_none, shallowCopy_eq]
  exact deepEq_refl x

/-- C7: frame condition — for a mapping base and an ObjectDiff (a mapping
that does not own "_diff"), every key of the base not mentioned in the diff
keeps exactly its base value in the result of applyDiff. -/
theorem c7_frame_condition (bf ds : Fields) (dir : String) (k : String)
    (hd : "_diff" ∉ fieldKeys ds) (hk : k ∉ fieldKeys ds) :
    getFieldV (applyDiff (.vobj bf) (some (.vobj ds)) dir) k = getField bf k := by
  rw [applyDiff_obj bf ds dir (isPrimitiveDiff_no_key ds hd)
    (isObjectDiff_no_key ds hd)]
  simp only [getFieldV]
  rw [applyLoop_get dir k (dedupFields ds) (fieldKeys_dedupFields_nodup ds) bf]
  have hl : lookupF (dedupFields ds) k = none := by
    rw [lookupF_dedupFields]
    exact (lookupF_none_iff ds k).2 hk
  rw [hl]

/-- Witness for C7: the key "keep" survives an ObjectDiff touching only "x". -/
theorem c7_frame_condition_witness :
    getFieldV (applyDiff (.vobj [("keep", .vint 9), ("x", .vint 1)])
      (some (.vobj [("x", primDiff (.vint 1) (.vint 2))])) "b") "keep" =
      getField [("keep", .vint 9), ("x", .vint 1)] "keep" :=
  c7_frame_condition [("keep", .vint 9), ("x", .vint 1)]
    [("x", primDiff (.vint 1) (.vint 2))] "b" "keep"
    (by simp [fieldKeys]) (by simp [fieldKeys])

/-- C8: starting from a store whose stateNamespaces mapping has no entry for
"x", storeDiff("x", d1) followed by storeDiff("x", d2) both succeed (the
first call creates the namespace) and leave, under the contract structure
stateNamespaces["x"].stateEntries, exactly the two entries
[{diff: d1}, {diff: d2}] in insertion order. -/
theorem c8_namespace_accumulation (sns : Fields) (d1 d2 : Value)
    (h : getField sns "x" = .vundefined) :
    ((storeDiff "x" d1 (.vobj [("stateNamespaces", .vobj sns)])).bind
        (fun g1 => storeDiff "x" d2 g1)).map
        (fun g2 =>
          getFieldV (getFieldV (getFieldV g2 "stateNamespaces") "x")
            "stateEntries") =
      some (.varr 0 [.vobj [("diff", d1)], .vobj [("diff", d2)]]) := by
  simp [storeDiff, setupNamespace, truthy, getFieldV, getField, setFieldV,
    setKey, h, getField_setKey_self]

/-- Witness for C8 at the empty namespace mapping with entries 7 and 8. -/
theorem c8_namespace_accumulation_witness :
    ((storeDiff "x" (.vint 7) (.vobj [("stateNamespaces", .vobj [])])).bind
        (fun g1 => storeDiff "x" (.vint 8) g1)).map
        (fun g2 =>
          getFieldV (getFieldV (getFieldV g2 "stateNamespaces") "x")
            "stateEntries") =
      some (.varr 0 [.vobj [("diff", .vint 7)], .vobj [("diff", .vint 8)]]) :=
  c8_namespace_accumulation [] (.vint 7) (.vint 8) (by rfl)

/-- C9: every diff the engine produces satisfies the ProducedDiff invariant —
in particular every ObjectDiff node, at any nesting depth, has at least one
key — and when no key differs between two compared mappings, diff returns
the absence marker rather than an empty mapping. -/
theorem c9_nonempty_object_diff :
    (∀ a b d : Value, diff a b = some d → ProducedDiff d) ∧
    (∀ fa fb : Fields, (∀ k, diff (getField fa k) (getField fb k) = none) →
      diff (.vobj fa) (.vobj fb) = none) := by
  constructor
  · exact fun a b d h => diff_produced a b d h
  · intro fa fb h
    rw [diff_obj, if_pos ((isEmpty_diffRun_iff fa fb).2 h)]

/-- Witness for C9: the diff of {x:1} against {x:2} satisfies the invariant,
and the diff of {x:1} against itself is the absence marker. -/
theorem c9_nonempty_object_diff_witness :
    ProducedDiff (.vobj [("x", primDiff (.vint 1) (.vint 2))]) ∧
    diff (.vobj [("x", .vint 1)]) (.vobj [("x", .vint 1)]) = none := by
  constructor
  · apply c9_nonempty_object_diff.1 (.vobj [("x", .vint 1)])
      (.vobj [("x", .vint 2)])
    rw [diff_eval]
    rfl
  · apply c9_nonempty_object_diff.2
    exact fun k => (diff_none_iff _ _).2 (deepEq_refl _)

/-- C10: for before = {_diff:{a:1,b:2}} and after = {_diff:{a:1,b:3}}, the
produced ObjectDiff itself owns a "_diff" key, is classified as neither a
PrimitiveDiff nor an ObjectDiff, and the forward application returns
undefined, which is not deep-equal to after: the forward round trip fails. -/
theorem c10_diff_key_defeats_apply :
    diff clashA clashB =
      some (.vobj [("_diff", .vobj [("b", primDiff (.vint 2) (.vint 3))])]) ∧
    hasOwnProp (.vobj [("_diff", .vobj [("b", primDiff (.vint 2) (.vint 3))])])
      "_diff" = true ∧
    isPrimitiveDiff
      (.vobj [("_diff", .vobj [("b", primDiff (.vint 2) (.vint 3))])]) = false ∧
    isObjectDiff
      (.vobj [("_diff", .vobj [("b", primDiff (.vint 2) (.vint 3))])]) = false ∧
    applyDiff clashA (diff clashA clashB) "b" = .vundefined ∧
    deepEq .vundefined clashB = false := by
  refine ⟨?_, ?_, ?_, ?_, ?_, ?_⟩
  · rw [diff_eval]
    rfl
  · rfl
  · rw [← isPrimitiveDiffE_eq]
    rfl
  · rfl
  · simp only [applyDiff_eval, diff_eval]
    rfl
  · rw [deepEq_eval]
    rfl
